import Mathlib

/-!
Verification development for the LLM-bulk-extraction pipeline of the
cpaor-data-viz-dashboard repository.

Strings are embedded as `List Char` (Python `str` is a sequence of code
points).  Python functions that can raise are embedded as `Option`- or
`Except`-valued functions, where `none` / `Except.error` marks a raised
exception.  The two near-identical pipelines live in namespaces `Acaps`
(acaps_protection_indicators/generate_predictions.py) and `Ohchr`
(ohchr/summaries_generation_utils/openai_async.py).
-/

set_option maxHeartbeats 1000000

/-- Characters matched by Python's regex `\s` and `str.strip()` on ASCII text:
space, tab, newline, carriage return, vertical tab, form feed. -/
def isPySpace (c : Char) : Bool :=
  c = ' ' || c = '\t' || c = '\n' || c = '\r' || c = '\x0B' || c = '\x0C'

/-- Python `s.replace(pat, rep)`: replace all non-overlapping occurrences of
`pat` left to right, with fuel (the fuel `s.length` always suffices because
each step consumes at least one character of the remaining input). -/
def replaceAllF (pat rep : List Char) : Nat → List Char → List Char
  | 0, s => s
  | _ + 1, [] => []
  | n + 1, x :: xs =>
    if pat ≠ [] ∧ pat.isPrefixOf (x :: xs) then
      rep ++ replaceAllF pat rep n (xs.drop (pat.length - 1))
    else
      x :: replaceAllF pat rep n xs

/-- Python `s.replace(pat, rep)`. -/
def replaceAll (pat rep s : List Char) : List Char :=
  replaceAllF pat rep s.length s

/-- Collapse every run of consecutive spaces to a single space (helper for
the embedding of `re.sub(r"\s+", " ", s)`). -/
def squeezeSpaces : List Char → List Char
  | [] => []
  | [x] => [x]
  | x :: y :: rest =>
    if x = ' ' ∧ y = ' ' then squeezeSpaces (y :: rest)
    else x :: squeezeSpaces (y :: rest)

/-- Python `re.sub(r"\s+", " ", s)`: every maximal run of whitespace becomes
one single space.  Implemented by first mapping each whitespace character to
a space and then squeezing runs of spaces. -/
def collapseWs (s : List Char) : List Char :=
  squeezeSpaces (s.map fun c => if isPySpace c then ' ' else c)

/-- Python `s.strip()`: remove leading and trailing whitespace. -/
def stripWs (s : List Char) : List Char :=
  ((s.dropWhile isPySpace).reverse.dropWhile isPySpace).reverse

/-- Python `re.sub(r"[\x00-\x1F]", "", value)` followed by keeping only
characters with code point at least 32: the body of `_sanitize_string` in
generate_predictions.py. -/
def _sanitize_string (s : List Char) : List Char :=
  (s.filter fun c => decide (¬ c.toNat ≤ 31)).filter fun c => decide (32 ≤ c.toNat)

/-- Fuel-driven body of `_add_comma_between_quotes`
(`re.sub(r"\"(\s*)\"", '"<space>",', s)`): a double quote followed only by
whitespace and another double quote is rewritten to quote, whitespace,
quote, comma; scanning resumes after the second quote.  (The regex matches
at a quote exactly when the first non-whitespace character after it is
another quote, because `\s*` can only consume whitespace.) -/
def _add_comma_between_quotes_f : Nat → List Char → List Char
  | 0, s => s
  | _ + 1, [] => []
  | n + 1, x :: xs =>
    if x = '"' then
      match xs.dropWhile isPySpace with
      | '"' :: rest2 =>
          '"' :: (xs.takeWhile isPySpace ++ '"' :: ',' :: _add_comma_between_quotes_f n rest2)
      | _ => x :: _add_comma_between_quotes_f n xs
    else x :: _add_comma_between_quotes_f n xs

/-- `_add_comma_between_quotes` from generate_predictions.py. -/
def _add_comma_between_quotes (s : List Char) : List Char :=
  _add_comma_between_quotes_f s.length s

/-- Fuel-driven body of `re.sub(r",(\s*[}\]])", r"\1", s)` (openai_async.py,
trailing-comma removal): a comma whose first following non-whitespace
character is a closing brace or bracket is deleted, keeping the whitespace
and the bracket; scanning resumes after the bracket. -/
def removeTrailingCommasF : Nat → List Char → List Char
  | 0, s => s
  | _ + 1, [] => []
  | n + 1, x :: xs =>
    if x = ',' then
      match xs.dropWhile isPySpace with
      | '\x7d' :: rest2 =>
          xs.takeWhile isPySpace ++ '\x7d' :: removeTrailingCommasF n rest2
      | ']' :: rest2 =>
          xs.takeWhile isPySpace ++ ']' :: removeTrailingCommasF n rest2
      | _ => x :: removeTrailingCommasF n xs
    else x :: removeTrailingCommasF n xs

/-- The trailing-comma removal `re.sub(r",(\s*[}\]])", r"\1", s)`. -/
def removeTrailingCommas (s : List Char) : List Char :=
  removeTrailingCommasF s.length s

/-- Take characters up to and including the first occurrence of `c`;
`none` when `c` does not occur. -/
def takeThrough (c : Char) : List Char → Option (List Char)
  | [] => none
  | x :: xs => if x = c then some [x] else (takeThrough c xs).map fun t => x :: t

/-- The span matched by `re.search(r"\{([^\}]*)\}", s)` (resp. the square
bracket variant): from the first occurrence of the opening character to the
first closing character after it; `none` when the regex finds no match, in
which case the Python code raises `AttributeError` on `.group(0)`. -/
def extractSpan (o c : Char) : List Char → Option (List Char)
  | [] => none
  | x :: xs =>
    if x = o then (takeThrough c xs).map fun t => x :: t
    else extractSpan o c xs

/-- First occurrence of an opening brace or bracket, whichever comes first.
This encodes the branch condition of `_extract_and_evaluate_first`:
`0 <= index_curly < index_square or (index_curly != -1 and index_square == -1)`
holds exactly when the first such character is a brace, the symmetric
condition exactly when it is a bracket, and the else-branch is taken exactly
when neither occurs. -/
def firstOpen : List Char → Option Char
  | [] => none
  | c :: cs => if c = '\x7b' ∨ c = '[' then some c else firstOpen cs

/-- `_extract_and_evaluate_first` (identical in generate_predictions.py and
openai_async.py): extract the first brace- or bracket-delimited span,
returning the whole string when neither character occurs; `none` embeds the
`AttributeError` raised when the chosen regex has no match. -/
def _extract_and_evaluate_first (s : List Char) : Option (List Char) :=
  match firstOpen s with
  | some c => if c = '\x7b' then extractSpan '\x7b' '\x7d' s else extractSpan '[' ']' s
  | none => some s

namespace Acaps

/-- The replace chain of `_postprocess_json_string` in
generate_predictions.py, in source order. -/
def replaceChain (s : List Char) : List Char :=
  s |> replaceAll "```".toList []
    |> replaceAll "json".toList []
    |> replaceAll "\n\x7b".toList "\x7b".toList
    |> replaceAll "\n".toList " ".toList
    |> replaceAll "\t".toList " ".toList
    |> replaceAll "\r".toList " ".toList
    |> replaceAll "\x7d\n".toList "\x7d".toList
    |> replaceAll "\\xa0".toList "\\u00A0".toList

/-- Everything `_postprocess_json_string` (generate_predictions.py) does
before the final bracket extraction: the replace chain, whitespace collapse
and strip, comma insertion between adjacent quotes, control-character
removal. -/
def clean (s : List Char) : List Char :=
  _sanitize_string (_add_comma_between_quotes (stripWs (collapseWs (replaceChain s))))

/-- `_postprocess_json_string` from generate_predictions.py; `none` embeds
the exception raised by the bracket-extraction step. -/
def _postprocess_json_string (s : List Char) : Option (List Char) :=
  _extract_and_evaluate_first (clean s)

end Acaps

namespace Ohchr

/-- The replace chain of `_postprocess_json_string` in openai_async.py, in
source order (no `\r` replacement and no whitespace collapse there). -/
def replaceChain (s : List Char) : List Char :=
  s |> replaceAll "```".toList []
    |> replaceAll "json".toList []
    |> replaceAll "\n\x7b".toList "\x7b".toList
    |> replaceAll "\x7d\n".toList "\x7d".toList
    |> replaceAll "\n".toList " ".toList
    |> replaceAll "\t".toList " ".toList
    |> replaceAll "\\xa0".toList "\\u00A0".toList

/-- Everything `_postprocess_json_string` (openai_async.py) does before the
final bracket extraction: trailing-comma removal, the replace chain, strip. -/
def clean (s : List Char) : List Char :=
  stripWs (replaceChain (removeTrailingCommas s))

/-- `_postprocess_json_string` from openai_async.py; `none` embeds the
exception raised by the bracket-extraction step. -/
def _postprocess_json_string (s : List Char) : Option (List Char) :=
  _extract_and_evaluate_first (clean s)

end Ohchr

/-- Structured values produced by decoding a model response: the shapes
`ast.literal_eval` / `json.loads` can return on the outputs this pipeline
handles (strings, integers, lists, string-keyed objects). -/
inductive Val where
  | str (s : List Char)
  | int (n : Int)
  | list (xs : List Val)
  | dict (kvs : List (List Char × Val))

/-- Content of a quoted string literal: characters up to the closing quote
`q` (no escape sequences), returning the content and the rest of the input. -/
def parseStringLit (q : Char) : List Char → Option (List Char × List Char)
  | [] => none
  | c :: cs =>
    if c = q then some ([], cs)
    else (parseStringLit q cs).map fun p => (c :: p.1, p.2)

/-- Numeric value of a digit string. -/
def digitsVal (ds : List Char) : Nat :=
  ds.foldl (fun a c => 10 * a + (c.toNat - 48)) 0

/-- An optionally negated integer literal at the head of the input. -/
def parseIntTok : List Char → Option (Val × List Char)
  | '-' :: rest =>
    let ds := rest.takeWhile Char.isDigit
    if ds = [] then none
    else some (Val.int (-(digitsVal ds : Int)), rest.dropWhile Char.isDigit)
  | s =>
    let ds := s.takeWhile Char.isDigit
    if ds = [] then none
    else some (Val.int (digitsVal ds), s.dropWhile Char.isDigit)

mutual

/-- Modelled from the spec: one value of the literal grammar shared by the
two external decoders of §4.2 — strings, integers, lists and string-keyed
dicts.  When `strict` is false this models the permissive literal-evaluator
(`ast.literal_eval`: single or double quotes, trailing commas); when
`strict` is true it models strict JSON (`json.loads`: double quotes only,
no trailing comma).  Fuel-driven recursive descent. -/
def parseValF (strict : Bool) : Nat → List Char → Option (Val × List Char)
  | 0, _ => none
  | n + 1, s =>
    match s.dropWhile isPySpace with
    | [] => none
    | c :: cs =>
      if c = '"' then (parseStringLit '"' cs).map fun p => (Val.str p.1, p.2)
      else if ¬ strict ∧ c = '\'' then (parseStringLit '\'' cs).map fun p => (Val.str p.1, p.2)
      else if c = '[' then parseListBodyF strict n cs
      else if c = '\x7b' then parseDictBodyF strict n cs
      else parseIntTok (c :: cs)

/-- List contents after the opening bracket has been consumed. -/
def parseListBodyF (strict : Bool) : Nat → List Char → Option (Val × List Char)
  | 0, _ => none
  | n + 1, s =>
    match s.dropWhile isPySpace with
    | ']' :: rest => some (Val.list [], rest)
    | s' =>
      match parseValF strict n s' with
      | none => none
      | some (v, rest) =>
        match parseListTailF strict n rest with
        | none => none
        | some (vs, rest2) => some (Val.list (v :: vs), rest2)

/-- Remaining list items: a closing bracket, or a comma followed by the next
item (a trailing comma before the close is accepted only when not strict). -/
def parseListTailF (strict : Bool) : Nat → List Char → Option (List Val × List Char)
  | 0, _ => none
  | n + 1, s =>
    match s.dropWhile isPySpace with
    | ']' :: rest => some ([], rest)
    | ',' :: rest =>
      match rest.dropWhile isPySpace with
      | ']' :: rest2 => if strict then none else some ([], rest2)
      | rest' =>
        match parseValF strict n rest' with
        | none => none
        | some (v, rest2) =>
          match parseListTailF strict n rest2 with
          | none => none
          | some (vs, rest3) => some (v :: vs, rest3)
    | _ => none

/-- Dict contents after the opening brace has been consumed. -/
def parseDictBodyF (strict : Bool) : Nat → List Char → Option (Val × List Char)
  | 0, _ => none
  | n + 1, s =>
    match s.dropWhile isPySpace with
    | '\x7d' :: rest => some (Val.dict [], rest)
    | s' =>
      match parsePairF strict n s' with
      | none => none
      | some (kv, rest) =>
        match parseDictTailF strict n rest with
        | none => none
        | some (kvs, rest2) => some (Val.dict (kv :: kvs), rest2)

/-- One `key: value` pair; the key is a quoted string. -/
def parsePairF (strict : Bool) : Nat → List Char → Option ((List Char × Val) × List Char)
  | 0, _ => none
  | n + 1, s =>
    match s.dropWhile isPySpace with
    | [] => none
    | c :: cs =>
      if c = '"' ∨ (¬ strict ∧ c = '\'') then
        match parseStringLit c cs with
        | none => none
        | some (k, rest) =>
          match rest.dropWhile isPySpace with
          | ':' :: rest2 =>
            match parseValF strict n rest2 with
            | none => none
            | some (v, rest3) => some ((k, v), rest3)
          | _ => none
      else none

/-- Remaining dict pairs: a closing brace, or a comma followed by the next
pair (a trailing comma before the close is accepted only when not strict). -/
def parseDictTailF (strict : Bool) : Nat → List Char → Option (List (List Char × Val) × List Char)
  | 0, _ => none
  | n + 1, s =>
    match s.dropWhile isPySpace with
    | '\x7d' :: rest => some ([], rest)
    | ',' :: rest =>
      match rest.dropWhile isPySpace with
      | '\x7d' :: rest2 => if strict then none else some ([], rest2)
      | rest' =>
        match parsePairF strict n rest' with
        | none => none
        | some (kv, rest2) =>
          match parseDictTailF strict n rest2 with
          | none => none
          | some (kvs, rest3) => some (kv :: kvs, rest3)
    | _ => none

end

/-- A whole input parsed as one value with nothing but whitespace after it;
`none` embeds a raised parse error. -/
def parseTop (strict : Bool) (s : List Char) : Option Val :=
  match parseValF strict (3 * s.length + 3) s with
  | some (v, rest) => if rest.dropWhile isPySpace = [] then some v else none
  | none => none

/-- Modelled from the spec: `ast.literal_eval`, the permissive
literal-evaluator of §4.2 (external standard library, not part of src/). -/
def literal_eval_model (s : List Char) : Option Val :=
  parseTop false s

/-- Modelled from the spec: `json.loads`, the strict JSON decoder of §4.2
(external standard library, not part of src/). -/
def json_loads_model (s : List Char) : Option Val :=
  parseTop true s

/-- Outcome of one network call, as observed by `call_chatgpt_async`:
`fail` when `session.post(...)` or `response.json()` itself raises
(transport error, non-JSON body); `envelope content` when a JSON body was
parsed, with `content = some text` when the path
`choices[0].message.content` exists and `none` when it is missing. -/
inductive NetResult where
  | fail
  | envelope (content : Option (List Char))
deriving DecidableEq

/-- The `response_type` literal of openai_async.py. -/
inductive RType where
  | extraction
  | summary

/-- The `try: literal_eval / except: try: json.loads / except: default`
chain, applied to one sanitized string `s`; `p` embeds `ast.literal_eval`
and `q` embeds `json.loads` (both return `none` for a raised parse error). -/
def decodeFallback (p q : List Char → Option Val) (dflt : Val) (s : List Char) : Val :=
  match p s with
  | some v => v
  | none =>
    match q s with
    | some v => v
    | none => dflt

namespace Acaps

/-- `call_chatgpt_async` from generate_predictions.py, as a function of the
network outcome for its prompt.  The POST and `response.json()` are not
inside any `try`, so `NetResult.fail` propagates as an exception; a missing
`choices[0].message.content` is caught and replaced by the text `"{}"`; the
sanitizer may raise (`none`), which propagates; otherwise the
literal-eval/JSON fallback chain runs with empty-dict default. -/
def call_chatgpt_async (p q : List Char → Option Val) (net : NetResult) : Except Unit Val :=
  match net with
  | .fail => .error ()
  | .envelope c? =>
    let output_text := c?.getD "\x7b\x7d".toList
    match Acaps._postprocess_json_string output_text with
    | none => .error ()
    | some s => .ok (decodeFallback p q (Val.dict []) s)

end Acaps

namespace Ohchr

/-- `call_chatgpt_async` from openai_async.py, as a function of the network
outcome.  Its `except` handler logs an f-string referencing
`clean_response`; when the POST or `response.json()` itself raised,
`clean_response` is unbound and the handler raises `NameError`, so
`NetResult.fail` propagates.  When the envelope parsed but
`choices[0].message.content` is missing, the handler runs and substitutes
the sentinel `"[]"` (extraction) or `""` (summary).  Summary calls return
the output text unchanged; extraction calls sanitize (which may raise) and
then run the literal-eval/JSON fallback chain with empty-list default. -/
def call_chatgpt_async (p q : List Char → Option Val) (response_type : RType)
    (net : NetResult) : Except Unit Val :=
  match net with
  | .fail => .error ()
  | .envelope c? =>
    let output_text : List Char :=
      match c? with
      | some c => c
      | none =>
        match response_type with
        | .extraction => "[]".toList
        | .summary => []
    match response_type with
    | .summary => .ok (Val.str output_text)
    | .extraction =>
      match Ohchr._postprocess_json_string output_text with
      | none => .error ()
      | some s => .ok (decodeFallback p q (Val.list []) s)

end Ohchr

/-- Sequencing of per-task outcomes as `asyncio.TaskGroup` + `gather` hand
them to the caller: the result list is in submission order, and any raised
per-task exception propagates to the batch level (no result list). -/
def mapME (f : α → Except ε β) : List α → Except ε (List β)
  | [] => .ok []
  | x :: xs =>
    match f x with
    | .error e => .error e
    | .ok v =>
      match mapME f xs with
      | .error e => .error e
      | .ok vs => .ok (v :: vs)

namespace Acaps

/-- `call_chatgpt_bulk` from generate_predictions.py as a function of the
per-prompt network outcomes `nets` (one entry per submitted message, in
submission order). -/
def call_chatgpt_bulk (p q : List Char → Option Val) (nets : List NetResult) :
    Except Unit (List Val) :=
  mapME (Acaps.call_chatgpt_async p q) nets

end Acaps

namespace Ohchr

/-- `call_chatgpt_bulk` from openai_async.py as a function of the
per-prompt network outcomes. -/
def call_chatgpt_bulk (p q : List Char → Option Val) (response_type : RType)
    (nets : List NetResult) : Except Unit (List Val) :=
  mapME (Ohchr.call_chatgpt_async p q response_type) nets

end Ohchr

/-- Sequencing of fallible per-element computations where a raised exception
aborts the surrounding loop, as in a Python list comprehension: `none` as
soon as one element raises, otherwise the list of results in order. -/
def mapMO (f : α → Option β) : List α → Option (List β)
  | [] => some []
  | x :: xs =>
    match f x with
    | none => none
    | some v => (mapMO f xs).map fun vs => v :: vs

/-- Python sequence indexing `l[i]`: a non-negative index is used directly,
a negative index `i` counts from the end (`l[len(l) + i]`), and an index out
of range on either side raises `IndexError` (`none`). -/
def pyIndex (l : List α) (i : Int) : Option α :=
  if 0 ≤ i then l.get? i.toNat
  else if 0 ≤ (l.length : Int) + i then l.get? ((l.length : Int) + i).toNat
  else none

namespace Acaps

/-- The evidence join inside `_get_final_results` (process_df.py):
`[relevant_entries[int(one_id)] for one_id in one_analytical_statement_relevant_ids]`.
Each decoded ID (here already an integer; `int(...)` raises separately on
non-numeric strings) indexes the slot's evidence list by Python indexing;
an out-of-range ID raises `IndexError`, aborting the whole comprehension. -/
def one_analytical_statement_relevant_entries (relevant_entries : List α)
    (ids : List Int) : Option (List α) :=
  mapMO (pyIndex relevant_entries) ids

end Acaps

namespace Ohchr

/-- The evidence join inside `_create_indicator_wise_relevant_entries_df`
(prepare_final_results.py): the loop
`for relevant_id in answers[i]: row_extracted_infos.append(row["Sentences Groups"][relevant_id])`.
An out-of-range ID raises `IndexError`, aborting the loop. -/
def row_extracted_infos (sentences_groups : List α) (ids : List Int) : Option (List α) :=
  mapMO (pyIndex sentences_groups) ids

end Ohchr

/-- State of one unit of work in `call_chatgpt_bulk`: not yet holding a
semaphore slot, in flight (slot held, awaiting the network), or completed
with its per-task outcome. -/
inductive TaskSt (α : Type u) where
  | pending
  | inflight
  | done (r : α)

/-- Is a task in flight? -/
def TaskSt.isInflight : TaskSt α → Bool
  | .inflight => true
  | _ => false

/-- The outcome of a completed task. -/
def TaskSt.result : TaskSt α → Option α
  | .done r => some r
  | _ => none

/-- Global state of one `call_chatgpt_bulk` run: the number of free
semaphore slots and the per-task states, in submission order. -/
structure BulkSt (α : Type u) where
  sem : Nat
  tasks : List (TaskSt α)

/-- Initial state of a bulk run: `asyncio.Semaphore(rate_limit)` with all
`n` tasks created and none yet holding a slot. -/
def initSt (α : Type u) (rate_limit n : Nat) : BulkSt α :=
  ⟨rate_limit, List.replicate n .pending⟩

/-- Cooperative-scheduling small steps of a bulk run.  `proc i` is the
outcome task `i` computes from its own network response (per-task work is
a pure function of its slot, independent of the other tasks).  `acquire`
fires only when a semaphore slot is free; `complete` finishes an in-flight
task and releases its slot.  The scheduler choice of `i` models an
arbitrary completion order. -/
inductive BStep (proc : Nat → α) : BulkSt α → BulkSt α → Prop where
  | acquire (sem : Nat) (tasks : List (TaskSt α)) (i : Nat)
      (hi : tasks.get? i = some .pending) :
      BStep proc ⟨sem + 1, tasks⟩ ⟨sem, tasks.set i .inflight⟩
  | complete (sem : Nat) (tasks : List (TaskSt α)) (i : Nat)
      (hi : tasks.get? i = some .inflight) :
      BStep proc ⟨sem, tasks⟩ ⟨sem + 1, tasks.set i (.done (proc i))⟩

/-- States reachable from `s0` under some interleaving. -/
inductive BReach (proc : Nat → α) (s0 : BulkSt α) : BulkSt α → Prop where
  | refl : BReach proc s0 s0
  | step {s s' : BulkSt α} : BReach proc s0 s → BStep proc s s' → BReach proc s0 s'

/-- Number of simultaneously in-flight calls. -/
def inflightCount (tasks : List (TaskSt α)) : Nat :=
  tasks.countP TaskSt.isInflight

/-- What `asyncio.gather` hands back once every task has finished: `none`
while some task is still unfinished; otherwise the per-task outcomes in
submission order, collapsed so that any raised per-task exception
propagates to the batch level. -/
def gatherOutcome (s : BulkSt (Except Unit β)) : Option (Except Unit (List β)) :=
  (mapMO TaskSt.result s.tasks).map (mapME fun r => r)

/-- A network outcome from which the ACAPS `call_chatgpt_async` recovers
without raising: the call itself must not fail (it is outside any `try`),
and any delivered content must survive the sanitizer's bracket extraction.
A missing-fields envelope is always recoverable (the sentinel `"{}"`
sanitizes fine). -/
def acapsRecoverable : NetResult → Bool
  | .fail => false
  | .envelope none => true
  | .envelope (some c) => (Acaps._postprocess_json_string c).isSome

/-- A network outcome from which the OHCHR extraction-mode
`call_chatgpt_async` recovers without raising: the call itself must not
fail (the handler's log line raises on an unbound `clean_response`), and
any delivered content must survive the sanitizer's bracket extraction.
A missing-fields envelope is always recoverable (the sentinel `"[]"`
sanitizes fine).  Summary-mode calls never sanitize, so for them only the
network call itself must not fail. -/
def ohchrExtractionRecoverable : NetResult → Bool
  | .fail => false
  | .envelope none => true
  | .envelope (some c) => (Ohchr._postprocess_json_string c).isSome

/-- Does `pat` occur as a contiguous substring of the given string? -/
def hasOcc (pat : List Char) : List Char → Bool
  | [] => pat.isPrefixOf []
  | x :: xs => pat.isPrefixOf (x :: xs) || hasOcc pat xs

/-- Invariant of the bulk-run transition system: the task list keeps its
length, free slots plus in-flight tasks always equal `rate_limit`, and a
completed task `i` always carries exactly `proc i`. -/
def stateInv (proc : Nat → α) (rate_limit n : Nat) (s : BulkSt α) : Prop :=
  s.tasks.length = n ∧
  s.sem + inflightCount s.tasks = rate_limit ∧
  ∀ i t, s.tasks.get? i = some t →
    t = .pending ∨ t = .inflight ∨ t = .done (proc i)

/-! ### Helper lemmas about `mapMO` and `pyIndex` -/

theorem mapMO_some_of_all_isSome {f : α → Option β} :
    ∀ {xs : List α}, (∀ x ∈ xs, (f x).isSome) →
      ∃ l, mapMO f xs = some l ∧ l.length = xs.length := by
  intro xs
  induction xs with
  | nil => exact fun _ => ⟨[], rfl, rfl⟩
  | cons x xs ih =>
    intro h
    obtain ⟨v, hv⟩ := Option.isSome_iff_exists.mp (h x (List.mem_cons_self x xs))
    obtain ⟨l, hl, hlen⟩ := ih fun y hy => h y (List.mem_cons_of_mem x hy)
    exact ⟨v :: l, by simp [mapMO, hv, hl], by simp [hlen]⟩

theorem mapMO_none_of_mem_none {f : α → Option β} :
    ∀ {xs : List α}, (∃ x ∈ xs, f x = none) → mapMO f xs = none := by
  intro xs
  induction xs with
  | nil => rintro ⟨x, hx, -⟩; exact absurd hx (List.not_mem_nil x)
  | cons y ys ih =>
    rintro ⟨x, hx, hfx⟩
    rcases List.mem_cons.mp hx with rfl | hx'
    · simp [mapMO, hfx]
    · cases hfy : f y with
      | none => simp [mapMO, hfy]
      | some v => simp [mapMO, hfy, ih ⟨x, hx', hfx⟩]

theorem pyIndex_some_of_in_range {l : List α} {i : Int}
    (h1 : -(l.length : Int) ≤ i) (h2 : i < l.length) :
    ∃ x, pyIndex l i = some x := by
  unfold pyIndex
  by_cases h0 : 0 ≤ i
  · have ht : i.toNat < l.length := by omega
    simp only [h0, if_true]
    exact ⟨l.get ⟨i.toNat, ht⟩, List.get?_eq_get ht⟩
  · have hpos : 0 ≤ (l.length : Int) + i := by omega
    have ht : ((l.length : Int) + i).toNat < l.length := by omega
    simp only [h0, if_false, hpos, if_true]
    exact ⟨l.get ⟨_, ht⟩, List.get?_eq_get ht⟩

theorem pyIndex_none_of_out_of_range {l : List α} {i : Int}
    (h : i < -(l.length : Int) ∨ (l.length : Int) ≤ i) :
    pyIndex l i = none := by
  unfold pyIndex
  rcases h with h | h
  · have h0 : ¬ 0 ≤ i := by omega
    have h1 : ¬ 0 ≤ (l.length : Int) + i := by omega
    simp [h0, h1]
  · have h0 : 0 ≤ i := by omega
    have h1 : l.length ≤ i.toNat := by omega
    rw [if_pos h0]
    exact List.get?_eq_none.mpr h1

/-! ### C7 : join behaviour on out-of-range references -/

/-- C7 counterexample: the claim's own scenario — decoded list `[0, 1, 99]`
against an evidence record with 2 items.  Both joiners raise `IndexError`
(`none`) and abort, instead of returning the two valid sub-items and
silently dropping 99. -/
theorem join_out_of_range_raises :
    Acaps.one_analytical_statement_relevant_entries ["a".toList, "b".toList] [0, 1, 99] = none ∧
    Ohchr.row_extracted_infos ["a".toList, "b".toList] [0, 1, 99] = none ∧
    ∀ l, Acaps.one_analytical_statement_relevant_entries
        ["a".toList, "b".toList] [0, 1, 99] ≠ some l := by
  refine ⟨by decide, by decide, ?_⟩
  intro l h
  rw [show Acaps.one_analytical_statement_relevant_entries
      ["a".toList, "b".toList] [0, 1, 99] = none by decide] at h
  exact Option.noConfusion h

/-- C7 (amended): each decoded reference is resolved by Python list
indexing on the slot's evidence list; when every reference is in range
(negative references included) the join returns one evidence item per
reference, but a single out-of-range reference raises `IndexError`, which
aborts the entire join loop rather than being dropped. -/
theorem join_resolves_by_python_indexing (entries : List (List Char)) (ids : List Int) :
    ((∀ i ∈ ids, -(entries.length : Int) ≤ i ∧ i < entries.length) →
      ∃ l, Acaps.one_analytical_statement_relevant_entries entries ids = some l ∧
        Ohchr.row_extracted_infos entries ids = some l ∧
        l.length = ids.length) ∧
    ((∃ i ∈ ids, i < -(entries.length : Int) ∨ (entries.length : Int) ≤ i) →
      Acaps.one_analytical_statement_relevant_entries entries ids = none ∧
      Ohchr.row_extracted_infos entries ids = none) := by
  constructor
  · intro h
    have hall : ∀ i ∈ ids, (pyIndex entries i).isSome := by
      intro i hi
      obtain ⟨x, hx⟩ := pyIndex_some_of_in_range (h i hi).1 (h i hi).2
      simp [hx]
    obtain ⟨l, hl, hlen⟩ := mapMO_some_of_all_isSome hall
    exact ⟨l, hl, hl, hlen⟩
  · intro h
    obtain ⟨i, hi, hout⟩ := h
    have : mapMO (pyIndex entries) ids = none :=
      mapMO_none_of_mem_none ⟨i, hi, pyIndex_none_of_out_of_range hout⟩
    exact ⟨this, this⟩

/-- C7 witness: a join whose references (one positive, one negative) are all
in range succeeds with one item per reference. -/
theorem join_resolves_by_python_indexing_witness :
    ∃ l, Acaps.one_analytical_statement_relevant_entries
        ["a".toList, "b".toList] [0, -1] = some l ∧
      Ohchr.row_extracted_infos ["a".toList, "b".toList] [0, -1] = some l ∧
      l.length = 2 :=
  (join_resolves_by_python_indexing ["a".toList, "b".toList] [0, -1]).1 (by decide)

/-! ### C10 : negative references resolve from the end -/

/-- C10: a decoded reference `-k` with `1 ≤ k ≤ length` resolves by Python
negative indexing to the `k`-th evidence item from the end, in both the
ACAPS joiner and the OHCHR joiner, and the item is emitted (not rejected
or dropped). -/
theorem negative_reference_resolves_from_end {α : Type} (entries : List α) (k : Nat)
    (h1 : 1 ≤ k) (h2 : k ≤ entries.length) :
    ∃ x, entries.get? (entries.length - k) = some x ∧
      Acaps.one_analytical_statement_relevant_entries entries [-(k : Int)] = some [x] ∧
      Ohchr.row_extracted_infos entries [-(k : Int)] = some [x] := by
  have h0 : ¬ 0 ≤ (-(k : Int)) := by omega
  have hpos : 0 ≤ (entries.length : Int) + -(k : Int) := by omega
  have htn : ((entries.length : Int) + -(k : Int)).toNat = entries.length - k := by omega
  have hlt : entries.length - k < entries.length := by omega
  refine ⟨entries.get ⟨entries.length - k, hlt⟩, List.get?_eq_get hlt, ?_, ?_⟩ <;>
  · show mapMO (pyIndex entries) [-(k : Int)] = _
    simp only [mapMO, pyIndex, h0, if_false, hpos, if_true, htn, List.get?_eq_get hlt]
    rfl

/-- C10 witness at a concrete list: reference `-1` yields the last item. -/
theorem negative_reference_resolves_from_end_witness :
    ∃ x, [10, 20, 30].get? (3 - 1) = some x ∧
      Acaps.one_analytical_statement_relevant_entries [10, 20, 30] [-(1 : Int)] = some [x] ∧
      Ohchr.row_extracted_infos [10, 20, 30] [-(1 : Int)] = some [x] :=
  negative_reference_resolves_from_end [10, 20, 30] 1 (by decide) (by decide)

/-! ### C5 : per-call failure handling -/

/-- C5 counterexample: a transport-level failure (the POST or
`response.json()` raising) is NOT replaced by the failure sentinel in either
variant — in generate_predictions.py that call is outside any `try`, and in
openai_async.py the `except` handler's log f-string references the unbound
`clean_response` and raises `NameError` — so the exception propagates
instead of yielding the sentinel. -/
theorem transport_failure_propagates :
    Acaps.call_chatgpt_async literal_eval_model json_loads_model .fail = .error () ∧
    Ohchr.call_chatgpt_async literal_eval_model json_loads_model .extraction .fail = .error () ∧
    Ohchr.call_chatgpt_async literal_eval_model json_loads_model .summary .fail = .error () ∧
    Ohchr.call_chatgpt_async literal_eval_model json_loads_model .extraction .fail ≠
      .ok (Val.list []) ∧
    Ohchr.call_chatgpt_async literal_eval_model json_loads_model .summary .fail ≠
      .ok (Val.str []) :=
  ⟨rfl, rfl, rfl, fun h => Except.noConfusion h, fun h => Except.noConfusion h⟩

/-- C5 (amended): only an envelope whose JSON body parsed but lacks
`choices[0].message.content` is caught and replaced by the designated
sentinel (text `"{}"` decoded in ACAPS, `"[]"` for OHCHR extraction, `""`
for OHCHR summary); a transport-level failure propagates in both variants
and is batch-fatal. -/
theorem per_call_failure_sentinels_and_transport_propagation
    (p q : List Char → Option Val) :
    Acaps.call_chatgpt_async p q (.envelope none) =
      .ok (decodeFallback p q (Val.dict []) "\x7b\x7d".toList) ∧
    Ohchr.call_chatgpt_async p q .extraction (.envelope none) =
      .ok (decodeFallback p q (Val.list []) "[]".toList) ∧
    Ohchr.call_chatgpt_async p q .summary (.envelope none) = .ok (Val.str []) ∧
    Acaps.call_chatgpt_async p q .fail = .error () ∧
    Ohchr.call_chatgpt_async p q .extraction .fail = .error () ∧
    Ohchr.call_chatgpt_async p q .summary .fail = .error () :=
  ⟨rfl, rfl, rfl, rfl, rfl, rfl⟩

/-! ### C8 : decode fallback order -/

/-- C8: in extraction mode the decoder first tries the permissive literal
parse `p`, consults the strict JSON parse `q` only when `p` fails, runs both
attempts on the exact same sanitized string `s`, and when both fail returns
the empty default of the expected shape (`{}` in the ACAPS pipeline, `[]`
in the OHCHR extraction pipeline) without raising. -/
theorem decode_literal_then_json_then_default (p q : List Char → Option Val)
    (raw s : List Char) :
    (Acaps._postprocess_json_string raw = some s →
      ((∀ v, p s = some v →
          Acaps.call_chatgpt_async p q (.envelope (some raw)) = .ok v) ∧
        (p s = none → ∀ v, q s = some v →
          Acaps.call_chatgpt_async p q (.envelope (some raw)) = .ok v) ∧
        (p s = none → q s = none →
          Acaps.call_chatgpt_async p q (.envelope (some raw)) = .ok (Val.dict [])))) ∧
    (Ohchr._postprocess_json_string raw = some s →
      ((∀ v, p s = some v →
          Ohchr.call_chatgpt_async p q .extraction (.envelope (some raw)) = .ok v) ∧
        (p s = none → ∀ v, q s = some v →
          Ohchr.call_chatgpt_async p q .extraction (.envelope (some raw)) = .ok v) ∧
        (p s = none → q s = none →
          Ohchr.call_chatgpt_async p q .extraction (.envelope (some raw)) =
            .ok (Val.list [])))) := by
  constructor
  · intro hs
    refine ⟨?_, ?_, ?_⟩
    · intro v hp
      simp [Acaps.call_chatgpt_async, hs, decodeFallback, hp]
    · intro hp v hq
      simp [Acaps.call_chatgpt_async, hs, decodeFallback, hp, hq]
    · intro hp hq
      simp [Acaps.call_chatgpt_async, hs, decodeFallback, hp, hq]
  · intro hs
    refine ⟨?_, ?_, ?_⟩
    · intro v hp
      simp [Ohchr.call_chatgpt_async, hs, decodeFallback, hp]
    · intro hp v hq
      simp [Ohchr.call_chatgpt_async, hs, decodeFallback, hp, hq]
    · intro hp hq
      simp [Ohchr.call_chatgpt_async, hs, decodeFallback, hp, hq]

/-- C8 witness: with the modelled decoders and raw text `"{}"`, the
permissive attempt succeeds and the call returns its value. -/
theorem decode_literal_then_json_then_default_witness :
    Acaps.call_chatgpt_async literal_eval_model json_loads_model
      (.envelope (some "\x7b\x7d".toList)) = .ok (Val.dict []) :=
  ((decode_literal_then_json_then_default literal_eval_model json_loads_model
      "\x7b\x7d".toList "\x7b\x7d".toList).1 rfl).1 (Val.dict []) rfl

/-! ### C9 : the comma-insertion step corrupts a valid response -/

/-- C9: on the syntactically valid model output `{"Text": "", "ID": []}`
the ACAPS sanitizer's comma-insertion step rewrites the empty-string value
`""` to `"",`, the sanitized text parses under neither the permissive
literal attempt nor the strict JSON attempt, and the sanitize-then-decode
pipeline returns the empty default `{}` even though the raw response
validly encoded a non-empty object. -/
theorem comma_insertion_corrupts_valid_empty_string_value :
    _add_comma_between_quotes "\"\"".toList = "\"\",".toList ∧
    Acaps._postprocess_json_string "\x7b\"Text\": \"\", \"ID\": []\x7d".toList =
      some "\x7b\"Text\": \"\",, \"ID\": []\x7d".toList ∧
    json_loads_model "\x7b\"Text\": \"\", \"ID\": []\x7d".toList =
      some (Val.dict [("Text".toList, Val.str []), ("ID".toList, Val.list [])]) ∧
    literal_eval_model "\x7b\"Text\": \"\",, \"ID\": []\x7d".toList = none ∧
    json_loads_model "\x7b\"Text\": \"\",, \"ID\": []\x7d".toList = none ∧
    Acaps.call_chatgpt_async literal_eval_model json_loads_model
      (.envelope (some "\x7b\"Text\": \"\", \"ID\": []\x7d".toList)) =
      .ok (Val.dict []) :=
  ⟨rfl, rfl, rfl, rfl, rfl, rfl⟩
/-! ### C2 : totality of the sanitizer -/

theorem firstOpen_mem_cases :
    ∀ {s : List Char} {c : Char}, firstOpen s = some c → c = '\x7b' ∨ c = '[' := by
  intro s
  induction s with
  | nil => intro c h; simp [firstOpen] at h
  | cons x xs ih =>
    intro c h
    unfold firstOpen at h
    by_cases hx : x = '\x7b' ∨ x = '['
    · rw [if_pos hx] at h
      injection h with h
      exact h ▸ hx
    · rw [if_neg hx] at h
      exact ih h

theorem lget_set_self {l : List α} {i : Nat} {b : α} (a : α) (h : l.get? i = some b) :
    (l.set i a).get? i = some a := by
  have hlen : i < l.length := by
    by_contra hc
    rw [List.get?_eq_none.mpr (by omega)] at h
    exact Option.noConfusion h
  exact List.get?_set_eq_of_lt a hlen

theorem inflightCount_cons (t : TaskSt α) (ts : List (TaskSt α)) :
    inflightCount (t :: ts) = inflightCount ts + if t.isInflight then 1 else 0 :=
  List.countP_cons _ _ _

theorem inflightCount_replicate_pending (n : Nat) :
    inflightCount (List.replicate n (TaskSt.pending : TaskSt α)) = 0 := by
  induction n with
  | zero => rfl
  | succ k ih =>
    rw [List.replicate_succ, inflightCount_cons]
    simp [TaskSt.isInflight, ih]

theorem inflightCount_set_inflight {tasks : List (TaskSt α)} {i : Nat}
    (h : tasks.get? i = some .pending) :
    inflightCount (tasks.set i .inflight) = inflightCount tasks + 1 := by
  induction tasks generalizing i with
  | nil => simp at h
  | cons t ts ih =>
    cases i with
    | zero =>
      have ht : t = .pending := by
        have : some t = some TaskSt.pending := h
        exact Option.some.inj this
      subst ht
      rw [List.set_cons_zero, inflightCount_cons, inflightCount_cons]
      simp [TaskSt.isInflight]
    | succ j =>
      have hj : ts.get? j = some .pending := h
      rw [List.set_cons_succ, inflightCount_cons, inflightCount_cons, ih hj]
      omega

theorem inflightCount_set_done {tasks : List (TaskSt α)} {i : Nat} {r : α}
    (h : tasks.get? i = some .inflight) :
    inflightCount tasks = inflightCount (tasks.set i (.done r)) + 1 := by
  induction tasks generalizing i with
  | nil => simp at h
  | cons t ts ih =>
    cases i with
    | zero =>
      have ht : t = .inflight := by
        have : some t = some TaskSt.inflight := h
        exact Option.some.inj this
      subst ht
      rw [List.set_cons_zero, inflightCount_cons, inflightCount_cons]
      simp [TaskSt.isInflight]
    | succ j =>
      have hj : ts.get? j = some .inflight := h
      rw [List.set_cons_succ, inflightCount_cons, inflightCount_cons, ih hj]
      omega

/-! ### The bulk-run invariant -/

theorem stateInv_init (proc : Nat → α) (rate_limit n : Nat) :
    stateInv proc rate_limit n (initSt α rate_limit n) := by
  refine ⟨List.length_replicate n _, ?_, ?_⟩
  · simp [initSt, inflightCount_replicate_pending]
  · intro i t h
    have hmem : t ∈ List.replicate n (TaskSt.pending : TaskSt α) := List.get?_mem h
    exact Or.inl (List.eq_of_mem_replicate hmem)

theorem stateInv_step {proc : Nat → α} {rate_limit n : Nat} {s s' : BulkSt α}
    (hinv : stateInv proc rate_limit n s) (hs : BStep proc s s') :
    stateInv proc rate_limit n s' := by
  obtain ⟨hlen, hsem, htask⟩ := hinv
  cases hs with
  | acquire sem tasks i hi =>
    refine ⟨by simpa using hlen, ?_, ?_⟩
    · have hcnt := inflightCount_set_inflight hi
      simp only at hsem ⊢
      omega
    · intro j t hj
      by_cases hij : i = j
      · subst hij
        rw [lget_set_self _ hi] at hj
        exact Or.inr (Or.inl (Option.some.inj hj).symm)
      · rw [List.get?_set_ne _ _ hij] at hj
        exact htask j t hj
  | complete sem tasks i hi =>
    refine ⟨by simpa using hlen, ?_, ?_⟩
    · have hcnt := inflightCount_set_done (r := proc i) hi
      simp only at hsem ⊢
      omega
    · intro j t hj
      by_cases hij : i = j
      · subst hij
        rw [lget_set_self _ hi] at hj
        exact Or.inr (Or.inr (Option.some.inj hj).symm)
      · rw [List.get?_set_ne _ _ hij] at hj
        exact htask j t hj

theorem stateInv_reach {proc : Nat → α} {rate_limit n : Nat} {s : BulkSt α}
    (hr : BReach proc (initSt α rate_limit n) s) :
    stateInv proc rate_limit n s := by
  induction hr with
  | refl => exact stateInv_init proc rate_limit n
  | step _ hstep ih => exact stateInv_step ih hstep

/-! ### C4 : the semaphore ceiling -/

/-- C4: for every `rate_limit ≥ 1` and every state reachable during a bulk
run, the number of simultaneously in-flight calls never exceeds
`rate_limit` — the free semaphore slots plus the in-flight calls always
account exactly for the `rate_limit` slots. -/
theorem inflight_never_exceeds_rate_limit (proc : Nat → α) (rate_limit n : Nat)
    (s : BulkSt α) (_hrl : 1 ≤ rate_limit)
    (hr : BReach proc (initSt α rate_limit n) s) :
    inflightCount s.tasks ≤ rate_limit := by
  obtain ⟨-, hsem, -⟩ := stateInv_reach hr
  omega

/-- C4 witness: a concrete reachable state of a rate-limit-1 run of two
tasks, reached by one `acquire` step, has at most one in-flight call. -/
theorem inflight_never_exceeds_rate_limit_witness :
    1 ≤ 1 ∧
    inflightCount
      (BulkSt.mk 0
        ((List.replicate 2 (TaskSt.pending : TaskSt Bool)).set 0 .inflight)).tasks ≤ 1 :=
  ⟨Nat.le_refl 1,
    inflight_never_exceeds_rate_limit (fun _ => true) 1 2 _ (Nat.le_refl 1)
      (BReach.step BReach.refl
        (BStep.acquire 0 (List.replicate 2 .pending) 0 rfl))⟩

/-! ### Helper lemmas about `mapME` and `mapMO` results -/

theorem mapME_id_map (f : α → Except ε β) :
    ∀ (xs : List α), mapME (fun r => r) (xs.map f) = mapME f xs := by
  intro xs
  induction xs with
  | nil => rfl
  | cons x xs ih =>
    cases hfx : f x <;> simp [mapME, List.map_cons, hfx, ih]

theorem mapME_ok_props {f : α → Except ε β} :
    ∀ {xs : List α} {l : List β}, mapME f xs = .ok l →
      l.length = xs.length ∧
      ∀ i x, xs.get? i = some x → ∃ v, f x = .ok v ∧ l.get? i = some v := by
  intro xs
  induction xs with
  | nil =>
    intro l h
    have hl : l = [] := (Except.ok.inj h).symm
    subst hl
    exact ⟨rfl, fun i x hx => by simp at hx⟩
  | cons y ys ih =>
    intro l h
    cases hfy : f y with
    | error e =>
      simp only [mapME, hfy] at h
      exact Except.noConfusion h
    | ok v =>
      cases hys : mapME f ys with
      | error e =>
        simp only [mapME, hfy, hys] at h
        exact Except.noConfusion h
      | ok vs =>
        simp only [mapME, hfy, hys] at h
        have hl : l = v :: vs := (Except.ok.inj h).symm
        subst hl
        obtain ⟨hlen, hidx⟩ := ih hys
        refine ⟨by simp [hlen], ?_⟩
        intro i x hx
        cases i with
        | zero =>
          have hxy : y = x := Option.some.inj hx
          subst hxy
          exact ⟨v, hfy, rfl⟩
        | succ j => exact hidx j x hx

theorem mapMO_some_props {f : α → Option β} :
    ∀ {xs : List α} {l : List β}, mapMO f xs = some l →
      l.length = xs.length ∧
      ∀ i x, xs.get? i = some x → ∃ y, l.get? i = some y ∧ f x = some y := by
  intro xs
  induction xs with
  | nil =>
    intro l h
    have hl : l = [] := (Option.some.inj h).symm
    subst hl
    exact ⟨rfl, fun i x hx => by simp at hx⟩
  | cons y ys ih =>
    intro l h
    cases hfy : f y with
    | none => simp [mapMO, hfy] at h
    | some v =>
      cases hys : mapMO f ys with
      | none => simp [mapMO, hfy, hys] at h
      | some vs =>
        simp only [mapMO, hfy, hys, Option.map_some'] at h
        have hl : l = v :: vs := (Option.some.inj h).symm
        subst hl
        obtain ⟨hlen, hidx⟩ := ih hys
        refine ⟨by simp [hlen], ?_⟩
        intro i x hx
        cases i with
        | zero =>
          have hxy : y = x := Option.some.inj hx
          subst hxy
          exact ⟨v, rfl, hfy⟩
        | succ j => exact hidx j x hx

/-! ### C3 : submission order is preserved -/

/-- C3 counterexample: a batch of one message whose response text contains
an opening bracket with no closing one makes `call_chatgpt_bulk` raise
instead of returning exactly one result, so the bulk call does not return
one decoded result per message for every batch. -/
theorem bulk_not_always_n_results :
    Acaps.call_chatgpt_bulk literal_eval_model json_loads_model
      [.envelope (some "results [ 1, 2".toList)] = .error () ∧
    ∀ l, Acaps.call_chatgpt_bulk literal_eval_model json_loads_model
        [.envelope (some "results [ 1, 2".toList)] ≠ .ok l := by
  have h0 : Acaps.call_chatgpt_bulk literal_eval_model json_loads_model
      [.envelope (some "results [ 1, 2".toList)] = .error () := rfl
  exact ⟨h0, fun l h => Except.noConfusion (h0.symm.trans h)⟩

/-- C3 (amended): whatever interleaving (completion order) a bulk run takes,
once every task has finished the gathered outcome equals the sequential
fold of the per-slot outcomes in submission order; in particular whenever a
result list is returned it has exactly one entry per message and the entry
at index `i` is the decoded response for message `i`. -/
theorem bulk_results_in_submission_order {β : Type} (proc : Nat → Except Unit β)
    (rate_limit n : Nat) (s : BulkSt (Except Unit β)) (e : Except Unit (List β))
    (hr : BReach proc (initSt (Except Unit β) rate_limit n) s)
    (hg : gatherOutcome s = some e) :
    e = mapME proc (List.range n) ∧
    ∀ l, e = .ok l → l.length = n ∧
      ∀ i, i < n → ∃ v, l.get? i = some v ∧ proc i = .ok v := by
  obtain ⟨hlen, -, htask⟩ := stateInv_reach hr
  obtain ⟨rs, hrs, he⟩ := Option.map_eq_some'.mp hg
  obtain ⟨hrslen, hrsidx⟩ := mapMO_some_props hrs
  have hdone : ∀ i, i < n → rs.get? i = some (proc i) := by
    intro i hi
    have hti : i < s.tasks.length := by omega
    obtain ⟨t, ht⟩ : ∃ t, s.tasks.get? i = some t :=
      ⟨s.tasks.get ⟨i, hti⟩, List.get?_eq_get hti⟩
    obtain ⟨y, hy, hres⟩ := hrsidx i t ht
    rcases htask i t ht with rfl | rfl | rfl
    · exact absurd hres (by simp [TaskSt.result])
    · exact absurd hres (by simp [TaskSt.result])
    · have hyv : proc i = y := Option.some.inj hres
      rw [hy, hyv]
  have hmaplen : ((List.range n).map proc).length = n := by simp
  have hrs_eq : rs = (List.range n).map proc := by
    refine List.ext_get?_iff.mpr ?_
    intro i
    by_cases hi : i < n
    · rw [hdone i hi, List.get?_map, List.get?_range hi]
      rfl
    · rw [List.get?_eq_none.mpr (by omega : rs.length ≤ i),
        List.get?_eq_none.mpr (by rw [hmaplen]; omega)]
  rw [hrs_eq, mapME_id_map] at he
  refine ⟨he.symm, ?_⟩
  intro l hl
  obtain ⟨hllen, hlidx⟩ := mapME_ok_props (he.trans hl)
  refine ⟨by simpa using hllen, ?_⟩
  intro i hi
  obtain ⟨v, hv, hlv⟩ := hlidx i i (List.get?_range hi)
  exact ⟨v, hlv, hv⟩

/-- C3 witness: a one-message run driven to completion (acquire then
complete) gathers exactly the submission-order outcome list `[7]`. -/
theorem bulk_results_in_submission_order_witness :
    (Except.ok [7] : Except Unit (List Nat)) =
      mapME (fun _ => Except.ok 7) (List.range 1) ∧
    ∀ l, (Except.ok [7] : Except Unit (List Nat)) = .ok l → l.length = 1 ∧
      ∀ i, i < 1 → ∃ v, l.get? i = some v ∧
        (fun _ => (Except.ok 7 : Except Unit Nat)) i = .ok v :=
  bulk_results_in_submission_order (fun _ => Except.ok 7) 1 1
    ⟨1, [TaskSt.done (Except.ok 7)]⟩ (Except.ok [7])
    (BReach.step
      (BReach.step BReach.refl (BStep.acquire 0 (List.replicate 1 .pending) 0 rfl))
      (BStep.complete 0 ((List.replicate 1 .pending).set 0 .inflight) 0 rfl))
    rfl

/-! ### C1 : one result per prompt, defaults at failed slots -/

/-- C1 counterexample: a batch with one element whose (well-formed) response
content is `"{"` — an unparseable text — does not get the empty default at
its slot in either pipeline: the sanitizer raises inside the task, the
exception propagates through the task group, and the caller gets no batch
result at all. -/
theorem bulk_element_exception_batch_fatal :
    Acaps.call_chatgpt_bulk literal_eval_model json_loads_model
      [.envelope (some "\x7b".toList)] = .error () ∧
    Ohchr.call_chatgpt_bulk literal_eval_model json_loads_model .extraction
      [.envelope (some "\x7b".toList)] = .error () ∧
    (∀ l, Acaps.call_chatgpt_bulk literal_eval_model json_loads_model
        [.envelope (some "\x7b".toList)] ≠ .ok l) ∧
    (∀ l, Ohchr.call_chatgpt_bulk literal_eval_model json_loads_model .extraction
        [.envelope (some "\x7b".toList)] ≠ .ok l) := by
  have h1 : Acaps.call_chatgpt_bulk literal_eval_model json_loads_model
      [.envelope (some "\x7b".toList)] = .error () := rfl
  have h2 : Ohchr.call_chatgpt_bulk literal_eval_model json_loads_model .extraction
      [.envelope (some "\x7b".toList)] = .error () := rfl
  exact ⟨h1, h2, fun l h => Except.noConfusion (h1.symm.trans h),
    fun l h => Except.noConfusion (h2.symm.trans h)⟩

/-- Shared shape of both pipelines' bulk calls: when every slot's call
succeeds and a missing-fields envelope yields `dflt`, the gathered batch
has one entry per prompt, in order, with `dflt` at each missing-fields
slot. -/
theorem mapME_ok_slotwise {f : NetResult → Except Unit Val} {dflt : Val}
    (hnone : f (.envelope none) = .ok dflt) :
    ∀ (nets : List NetResult), (∀ net ∈ nets, ∃ v, f net = .ok v) →
      ∃ l, mapME f nets = .ok l ∧ l.length = nets.length ∧
        ∀ i, nets.get? i = some (.envelope none) → l.get? i = some dflt := by
  intro nets
  induction nets with
  | nil => exact fun _ => ⟨[], rfl, rfl, fun i h => by simp at h⟩
  | cons net rest ih =>
    intro h
    obtain ⟨v, hv⟩ := h net (List.mem_cons_self _ _)
    obtain ⟨l, hl, hlen, hidx⟩ := ih fun x hx => h x (List.mem_cons_of_mem _ hx)
    refine ⟨v :: l, ?_, by simp [hlen], ?_⟩
    · simp only [mapME, hv, hl]
    · intro i hi
      cases i with
      | zero =>
        have hnet : net = .envelope none := Option.some.inj hi
        rw [hnet] at hv
        have hvd : v = dflt := Except.ok.inj (hv.symm.trans hnone)
        show some v = some dflt
        rw [hvd]
      | succ j => exact hidx j hi

/-- C1 (amended): in each pipeline (ACAPS, OHCHR extraction, OHCHR
summary), provided every element's network call returns a parsed envelope
and every delivered content survives the sanitizer's bracket extraction
(summary calls never sanitize), `call_chatgpt_bulk` returns exactly one
entry per submitted prompt, in order, with the kind-appropriate empty
default (`{}`, `[]`, `""` respectively) at every slot whose envelope lacked
the expected response fields; an element whose content fails sanitization —
or whose network call itself fails — instead raises and aborts the whole
batch. -/
theorem bulk_one_result_per_prompt_when_recoverable :
    (∀ (nets : List NetResult), (∀ net ∈ nets, acapsRecoverable net = true) →
      ∃ l, Acaps.call_chatgpt_bulk literal_eval_model json_loads_model nets = .ok l ∧
        l.length = nets.length ∧
        ∀ i, nets.get? i = some (.envelope none) → l.get? i = some (Val.dict [])) ∧
    (∀ (nets : List NetResult), (∀ net ∈ nets, ohchrExtractionRecoverable net = true) →
      ∃ l, Ohchr.call_chatgpt_bulk literal_eval_model json_loads_model .extraction nets =
          .ok l ∧
        l.length = nets.length ∧
        ∀ i, nets.get? i = some (.envelope none) → l.get? i = some (Val.list [])) ∧
    (∀ (nets : List NetResult), (∀ net ∈ nets, net ≠ NetResult.fail) →
      ∃ l, Ohchr.call_chatgpt_bulk literal_eval_model json_loads_model .summary nets =
          .ok l ∧
        l.length = nets.length ∧
        ∀ i, nets.get? i = some (.envelope none) → l.get? i = some (Val.str [])) := by
  refine ⟨?_, ?_, ?_⟩
  · intro nets h
    refine mapME_ok_slotwise rfl nets ?_
    intro net hmem
    have hnet := h net hmem
    cases net with
    | fail => simp [acapsRecoverable] at hnet
    | envelope c? =>
      cases c? with
      | none => exact ⟨Val.dict [], rfl⟩
      | some c =>
        have hnet' : (Acaps._postprocess_json_string c).isSome = true := hnet
        obtain ⟨s, hs⟩ := Option.isSome_iff_exists.mp hnet'
        exact ⟨decodeFallback literal_eval_model json_loads_model (Val.dict []) s, by
          simp [Acaps.call_chatgpt_async, hs]⟩
  · intro nets h
    refine mapME_ok_slotwise rfl nets ?_
    intro net hmem
    have hnet := h net hmem
    cases net with
    | fail => simp [ohchrExtractionRecoverable] at hnet
    | envelope c? =>
      cases c? with
      | none => exact ⟨Val.list [], rfl⟩
      | some c =>
        have hnet' : (Ohchr._postprocess_json_string c).isSome = true := hnet
        obtain ⟨s, hs⟩ := Option.isSome_iff_exists.mp hnet'
        exact ⟨decodeFallback literal_eval_model json_loads_model (Val.list []) s, by
          simp [Ohchr.call_chatgpt_async, hs]⟩
  · intro nets h
    refine mapME_ok_slotwise rfl nets ?_
    intro net hmem
    cases net with
    | fail => exact absurd rfl (h _ hmem)
    | envelope c? =>
      cases c? with
      | none => exact ⟨Val.str [], rfl⟩
      | some c => exact ⟨Val.str c, rfl⟩

/-- C1 witness: concrete batches in each pipeline (a missing-fields
envelope plus, where applicable, a well-formed content) yield exactly one
entry per prompt with the kind-appropriate default at the missing-fields
slot. -/
theorem bulk_one_result_per_prompt_when_recoverable_witness :
    (∃ l, Acaps.call_chatgpt_bulk literal_eval_model json_loads_model
        [.envelope none, .envelope (some "\x7b\"a\": 1\x7d".toList)] = .ok l ∧
      l.length = ([.envelope none,
        .envelope (some "\x7b\"a\": 1\x7d".toList)] : List NetResult).length ∧
      ∀ i, ([.envelope none,
          .envelope (some "\x7b\"a\": 1\x7d".toList)] : List NetResult).get? i =
          some (.envelope none) →
        l.get? i = some (Val.dict [])) ∧
    (∃ l, Ohchr.call_chatgpt_bulk literal_eval_model json_loads_model .extraction
        [.envelope none, .envelope (some "[0, 1]".toList)] = .ok l ∧
      l.length = ([.envelope none,
        .envelope (some "[0, 1]".toList)] : List NetResult).length ∧
      ∀ i, ([.envelope none,
          .envelope (some "[0, 1]".toList)] : List NetResult).get? i =
          some (.envelope none) →
        l.get? i = some (Val.list [])) ∧
    (∃ l, Ohchr.call_chatgpt_bulk literal_eval_model json_loads_model .summary
        [.envelope none] = .ok l ∧
      l.length = ([.envelope none] : List NetResult).length ∧
      ∀ i, ([.envelope none] : List NetResult).get? i = some (.envelope none) →
        l.get? i = some (Val.str [])) :=
  ⟨bulk_one_result_per_prompt_when_recoverable.1 _ (by decide),
    bulk_one_result_per_prompt_when_recoverable.2.1 _ (by decide),
    bulk_one_result_per_prompt_when_recoverable.2.2 _ (by decide)⟩
/-! ### C6 : idempotence of the sanitizer and its steps -/

/-- C6 counterexample: the full sanitize pipeline is not idempotent
(`sanitize "jjsonson" = "json"` but `sanitize "json" = ""`), the
token-removal step `replace("json", "")` is not idempotent, and the
comma-insertion step is not idempotent (`'""'` becomes `'"",'` and then
`'"",,'`). -/
theorem sanitizer_not_idempotent :
    Acaps._postprocess_json_string "jjsonson".toList = some "json".toList ∧
    Acaps._postprocess_json_string "json".toList = some [] ∧
    (Acaps._postprocess_json_string "jjsonson".toList).bind Acaps._postprocess_json_string ≠
      Acaps._postprocess_json_string "jjsonson".toList ∧
    replaceAll "json".toList [] (replaceAll "json".toList [] "jjsonson".toList) ≠
      replaceAll "json".toList [] "jjsonson".toList ∧
    _add_comma_between_quotes (_add_comma_between_quotes "\"\"".toList) ≠
      _add_comma_between_quotes "\"\"".toList :=
  ⟨by decide, by decide, by decide, by decide, by decide⟩

theorem sanitize_string_idem (s : List Char) :
    _sanitize_string (_sanitize_string s) = _sanitize_string s := by
  unfold _sanitize_string
  simp only [List.filter_filter]
  refine List.filter_congr ?_
  intro a _
  by_cases h1 : a.toNat ≤ 31 <;> by_cases h2 : 32 ≤ a.toNat <;> simp [h1, h2]

theorem takeThrough_eq_some {c : Char} :
    ∀ {s t : List Char}, takeThrough c s = some t → ∃ u, t = u ++ [c] ∧ c ∉ u := by
  intro s
  induction s with
  | nil => intro t h; simp [takeThrough] at h
  | cons x xs ih =>
    intro t h
    by_cases hx : x = c
    · subst hx
      simp only [takeThrough, if_pos rfl] at h
      exact ⟨[], (Option.some.inj h).symm, by simp⟩
    · simp only [takeThrough, if_neg hx] at h
      cases htc : takeThrough c xs with
      | none => rw [htc] at h; simp at h
      | some w =>
        rw [htc] at h
        have ht : t = x :: w := (Option.some.inj h).symm
        obtain ⟨u, hu, hc⟩ := ih htc
        refine ⟨x :: u, by rw [ht, hu]; rfl, ?_⟩
        intro hmem
        rcases List.mem_cons.mp hmem with h1 | h1
        · exact hx h1.symm
        · exact hc h1

theorem takeThrough_append_close {c : Char} :
    ∀ {u : List Char}, c ∉ u → takeThrough c (u ++ [c]) = some (u ++ [c]) := by
  intro u
  induction u with
  | nil => intro _; simp [takeThrough]
  | cons x xs ih =>
    intro h
    have hx : x ≠ c := fun hh => h (hh ▸ List.mem_cons_self x xs)
    rw [List.cons_append]
    simp only [takeThrough, if_neg hx]
    rw [ih fun hm => h (List.mem_cons_of_mem x hm)]
    rfl

theorem extractSpan_eq_some {o c : Char} :
    ∀ {s t : List Char}, extractSpan o c s = some t →
      ∃ u, t = o :: (u ++ [c]) ∧ c ∉ u := by
  intro s
  induction s with
  | nil => intro t h; simp [extractSpan] at h
  | cons x xs ih =>
    intro t h
    by_cases hx : x = o
    · subst hx
      simp only [extractSpan, if_pos rfl] at h
      cases htc : takeThrough c xs with
      | none => rw [htc] at h; simp at h
      | some w =>
        rw [htc] at h
        have ht : t = x :: w := (Option.some.inj h).symm
        obtain ⟨u, hu, hc⟩ := takeThrough_eq_some htc
        exact ⟨u, by rw [ht, hu], hc⟩
    · simp only [extractSpan, if_neg hx] at h
      exact ih h

theorem extract_idem {s t : List Char} (h : _extract_and_evaluate_first s = some t) :
    _extract_and_evaluate_first t = some t := by
  unfold _extract_and_evaluate_first at h
  cases hfo : firstOpen s with
  | none =>
    rw [hfo] at h
    have : s = t := Option.some.inj h
    subst this
    unfold _extract_and_evaluate_first
    rw [hfo]
  | some c0 =>
    rw [hfo] at h
    rcases firstOpen_mem_cases hfo with rfl | rfl
    · have h' : extractSpan '\x7b' '\x7d' s = some t := by simpa using h
      obtain ⟨u, ht, hc⟩ := extractSpan_eq_some h'
      subst ht
      unfold _extract_and_evaluate_first
      have hfo2 : firstOpen ('\x7b' :: (u ++ ['\x7d'])) = some '\x7b' := by
        simp [firstOpen]
      rw [hfo2]
      show extractSpan '\x7b' '\x7d' ('\x7b' :: (u ++ ['\x7d'])) = _
      simp only [extractSpan, if_pos rfl]
      rw [takeThrough_append_close hc]
      rfl
    · have h' : extractSpan '[' ']' s = some t := by simpa using h
      obtain ⟨u, ht, hc⟩ := extractSpan_eq_some h'
      subst ht
      unfold _extract_and_evaluate_first
      have hfo2 : firstOpen ('[' :: (u ++ [']'])) = some '[' := by
        simp [firstOpen]
      rw [hfo2]
      show extractSpan '[' ']' ('[' :: (u ++ [']'])) = _
      simp only [extractSpan, if_pos rfl]
      rw [takeThrough_append_close hc]
      rfl

theorem squeeze_head (y : Char) (r : List Char) :
    ∃ u, squeezeSpaces (y :: r) = y :: u := by
  induction r generalizing y with
  | nil => exact ⟨[], rfl⟩
  | cons z r' ih =>
    by_cases hyz : y = ' ' ∧ z = ' '
    · obtain ⟨u, hu⟩ := ih z
      refine ⟨u, ?_⟩
      rw [show squeezeSpaces (y :: z :: r') = squeezeSpaces (z :: r') from by
        simp [squeezeSpaces, hyz]]
      rw [hu, hyz.1, hyz.2]
    · exact ⟨squeezeSpaces (z :: r'), by simp [squeezeSpaces, hyz]⟩

theorem squeeze_chain (l : List Char) :
    List.Chain' (fun a b => ¬(a = ' ' ∧ b = ' ')) (squeezeSpaces l) := by
  induction l with
  | nil => simp [squeezeSpaces]
  | cons x l' ih =>
    cases l' with
    | nil => simp [squeezeSpaces]
    | cons y r =>
      by_cases hxy : x = ' ' ∧ y = ' '
      · rw [show squeezeSpaces (x :: y :: r) = squeezeSpaces (y :: r) from by
          simp [squeezeSpaces, hxy]]
        exact ih
      · rw [show squeezeSpaces (x :: y :: r) = x :: squeezeSpaces (y :: r) from by
          simp [squeezeSpaces, hxy]]
        obtain ⟨u, hu⟩ := squeeze_head y r
        rw [hu]
        rw [hu] at ih
        exact List.chain'_cons.mpr ⟨hxy, ih⟩

theorem chain_squeeze_id (l : List Char)
    (h : List.Chain' (fun a b => ¬(a = ' ' ∧ b = ' ')) l) :
    squeezeSpaces l = l := by
  induction l with
  | nil => rfl
  | cons x l' ih =>
    cases l' with
    | nil => rfl
    | cons y r =>
      obtain ⟨hxy, htail⟩ := List.chain'_cons.mp h
      rw [show squeezeSpaces (x :: y :: r) = x :: squeezeSpaces (y :: r) from by
        simp [squeezeSpaces, hxy]]
      rw [ih htail]

theorem squeeze_subset (l : List Char) : squeezeSpaces l ⊆ l := by
  induction l with
  | nil => simp [squeezeSpaces]
  | cons x l' ih =>
    cases l' with
    | nil => simp [squeezeSpaces]
    | cons y r =>
      by_cases hxy : x = ' ' ∧ y = ' '
      · rw [show squeezeSpaces (x :: y :: r) = squeezeSpaces (y :: r) from by
          simp [squeezeSpaces, hxy]]
        exact fun a ha => List.mem_cons_of_mem x (ih ha)
      · rw [show squeezeSpaces (x :: y :: r) = x :: squeezeSpaces (y :: r) from by
          simp [squeezeSpaces, hxy]]
        intro a ha
        rcases List.mem_cons.mp ha with rfl | ha'
        · exact List.mem_cons_self a _
        · exact List.mem_cons_of_mem x (ih ha')

theorem collapseWs_space_only {s : List Char} {c : Char}
    (hc : c ∈ collapseWs s) (hw : isPySpace c = true) : c = ' ' := by
  have hmem : c ∈ s.map (fun c => if isPySpace c then ' ' else c) := squeeze_subset _ hc
  obtain ⟨a, -, hfa⟩ := List.mem_map.mp hmem
  by_cases ha : isPySpace a
  · rw [if_pos ha] at hfa
    exact hfa.symm
  · rw [if_neg ha] at hfa
    rw [hfa] at ha
    exact absurd hw ha

theorem map_ws_id {t : List Char} (h : ∀ c ∈ t, isPySpace c = true → c = ' ') :
    t.map (fun c => if isPySpace c then ' ' else c) = t := by
  have hcg : ∀ a ∈ t, (if isPySpace a then ' ' else a) = id a := by
    intro a ha
    by_cases hw : isPySpace a
    · rw [if_pos hw]
      exact (h a ha hw).symm
    · rw [if_neg hw]
      rfl
  rw [List.map_congr_left hcg, List.map_id]

theorem head_dropWhile_false (p : α → Bool) :
    ∀ (l : List α), ∀ x ∈ (l.dropWhile p).head?, p x = false := by
  intro l
  induction l with
  | nil => intro x hx; simp at hx
  | cons y ys ih =>
    intro x hx
    by_cases hy : p y
    · rw [List.dropWhile_cons, if_pos hy] at hx
      exact ih x hx
    · rw [List.dropWhile_cons, if_neg hy] at hx
      rw [Option.mem_def] at hx
      have hyx : y = x := Option.some.inj hx
      subst hyx
      simpa using hy

theorem dropWhile_eq_self_of_head {p : α → Bool} {l : List α}
    (h : ∀ x ∈ l.head?, p x = false) : l.dropWhile p = l := by
  cases l with
  | nil => rfl
  | cons y ys =>
    have hy : p y = false := h y rfl
    rw [List.dropWhile_cons, if_neg (by simp [hy])]

theorem dropWhile_idem (p : α → Bool) (l : List α) :
    (l.dropWhile p).dropWhile p = l.dropWhile p :=
  dropWhile_eq_self_of_head (head_dropWhile_false p l)

theorem stripWs_idem (u : List Char) : stripWs (stripWs u) = stripWs u := by
  have hA : (((u.dropWhile isPySpace).reverse.dropWhile isPySpace).reverse).dropWhile
        isPySpace =
      ((u.dropWhile isPySpace).reverse.dropWhile isPySpace).reverse := by
    apply dropWhile_eq_self_of_head
    intro x hx
    have hwv : ((u.dropWhile isPySpace).reverse.dropWhile isPySpace).reverse <+:
        u.dropWhile isPySpace := by
      conv_rhs => rw [← List.reverse_reverse (u.dropWhile isPySpace)]
      exact List.reverse_prefix.mpr (List.dropWhile_suffix _)
    obtain ⟨t, ht⟩ := hwv
    rw [Option.mem_def] at hx
    have hxv : (u.dropWhile isPySpace).head? = some x := by
      rw [← ht, List.head?_append, hx]
      rfl
    exact head_dropWhile_false isPySpace u x hxv
  unfold stripWs
  rw [hA, List.reverse_reverse, dropWhile_idem]

theorem chain'_stripWs {R : Char → Char → Prop} (hsym : ∀ a b, R a b → R b a)
    {t : List Char} (h : List.Chain' R t) :
    List.Chain' R (stripWs t) := by
  unfold stripWs
  have h1 : List.Chain' R (t.dropWhile isPySpace) :=
    h.suffix (List.dropWhile_suffix _)
  have h2 : List.Chain' R (t.dropWhile isPySpace).reverse := by
    rw [List.chain'_reverse]
    exact h1.imp fun a b hab => hsym a b hab
  have h3 : List.Chain' R ((t.dropWhile isPySpace).reverse.dropWhile isPySpace) :=
    h2.suffix (List.dropWhile_suffix _)
  rw [List.chain'_reverse]
  exact h3.imp fun a b hab => hsym a b hab

theorem stripWs_subset (t : List Char) : stripWs t ⊆ t := by
  intro a ha
  unfold stripWs at ha
  rw [List.mem_reverse] at ha
  have ha2 := (List.dropWhile_sublist _).subset ha
  rw [List.mem_reverse] at ha2
  exact (List.dropWhile_sublist _).subset ha2

theorem collapse_strip_idem (s : List Char) :
    stripWs (collapseWs (stripWs (collapseWs s))) = stripWs (collapseWs s) := by
  have hchain : List.Chain' (fun a b : Char => ¬(a = ' ' ∧ b = ' '))
      (stripWs (collapseWs s)) :=
    chain'_stripWs (fun a b hab h2 => hab ⟨h2.2, h2.1⟩) (squeeze_chain _)
  have hws : ∀ c ∈ stripWs (collapseWs s), isPySpace c = true → c = ' ' := by
    intro c hc hw
    exact collapseWs_space_only (stripWs_subset _ hc) hw
  have hcol : collapseWs (stripWs (collapseWs s)) = stripWs (collapseWs s) := by
    show squeezeSpaces ((stripWs (collapseWs s)).map fun c => if isPySpace c then ' ' else c) =
      stripWs (collapseWs s)
    rw [map_ws_id hws]
    exact chain_squeeze_id _ hchain
  rw [hcol, stripWs_idem]

theorem replaceAllF_id_of_no_occ {pat rep : List Char} :
    ∀ (n : Nat) (t : List Char), hasOcc pat t = false → replaceAllF pat rep n t = t := by
  intro n
  induction n with
  | zero => intro t _; rfl
  | succ m ih =>
    intro t ht
    cases t with
    | nil => rfl
    | cons x xs =>
      have hocc : pat.isPrefixOf (x :: xs) = false ∧ hasOcc pat xs = false :=
        Bool.or_eq_false_iff.mp (by simpa [hasOcc] using ht)
      have hcond : ¬ (pat ≠ [] ∧ pat.isPrefixOf (x :: xs)) := by
        rintro ⟨-, h2⟩
        rw [hocc.1] at h2
        exact Bool.noConfusion h2
      simp only [replaceAllF, if_neg hcond]
      rw [ih xs hocc.2]

theorem suffix_of_cons_suffix {x : α} {w pat : List α}
    (h : (x :: w) <:+ pat) : w <:+ pat := by
  obtain ⟨u, hu⟩ := h
  exact ⟨u ++ [x], by simpa [List.append_assoc] using hu⟩

theorem hasOcc_append_eq_false {pat rep R : List Char}
    (hC : ∀ v ∈ rep.tails, v ≠ [] → ¬ pat <+: v ∧ ¬ v <+: pat)
    (hR : hasOcc pat R = false) :
    hasOcc pat (rep ++ R) = false := by
  suffices h : ∀ u, u <:+ rep → hasOcc pat (u ++ R) = false from
    h rep (List.suffix_refl rep)
  intro u
  induction u with
  | nil => intro _; simpa using hR
  | cons x u' ih =>
    intro hu
    have htail := ih (suffix_of_cons_suffix hu)
    have hCu := hC (x :: u') ((List.mem_tails _ _).mpr hu) (by simp)
    have hhead : pat.isPrefixOf ((x :: u') ++ R) = false := by
      cases hb : pat.isPrefixOf ((x :: u') ++ R) with
      | false => rfl
      | true =>
        exfalso
        have hpre := List.isPrefixOf_iff_prefix.mp hb
        rcases List.prefix_or_prefix_of_prefix hpre (List.prefix_append (x :: u') R)
          with h1 | h1
        · exact hCu.1 h1
        · exact hCu.2 h1
    show (pat.isPrefixOf (x :: (u' ++ R)) || hasOcc pat (u' ++ R)) = false
    rw [show x :: (u' ++ R) = (x :: u') ++ R from rfl, hhead, htail]
    rfl

theorem replaceAllF_no_occ {pat rep : List Char} (hne : pat ≠ [])
    (hC : ∀ v ∈ rep.tails, v ≠ [] → ¬ pat <+: v ∧ ¬ v <+: pat)
    (hD : ∀ w ∈ pat.tails, w ≠ [] → ¬ w <+: rep ∧ ¬ rep <+: w) :
    ∀ (n : Nat) (t : List Char), t.length ≤ n →
      hasOcc pat (replaceAllF pat rep n t) = false ∧
      ∀ w ∈ pat.tails, w ≠ [] → w <+: replaceAllF pat rep n t → w <+: t := by
  have hprefnil : pat.isPrefixOf ([] : List Char) = false := by
    cases hp : pat.isPrefixOf ([] : List Char) with
    | false => rfl
    | true => exact absurd (List.prefix_nil.mp (List.isPrefixOf_iff_prefix.mp hp)) hne
  intro n
  induction n with
  | zero =>
    intro t hlen
    have ht : t = [] := List.length_eq_zero.mp (Nat.le_zero.mp hlen)
    subst ht
    refine ⟨hprefnil, ?_⟩
    intro w _ hwne hpre
    exact absurd (List.prefix_nil.mp hpre) hwne
  | succ m ih =>
    intro t hlen
    cases t with
    | nil =>
      refine ⟨hprefnil, ?_⟩
      intro w _ hwne hpre
      exact absurd (List.prefix_nil.mp hpre) hwne
    | cons x xs =>
      by_cases hmatch : pat ≠ [] ∧ pat.isPrefixOf (x :: xs)
      · have hout : replaceAllF pat rep (m + 1) (x :: xs) =
            rep ++ replaceAllF pat rep m (xs.drop (pat.length - 1)) := by
          simp only [replaceAllF, if_pos hmatch]
        have hfuel : (xs.drop (pat.length - 1)).length ≤ m := by
          rw [List.length_drop]
          have hxl : xs.length + 1 ≤ m + 1 := hlen
          have hp1 : 1 ≤ pat.length := by
            cases hp : pat with
            | nil => exact absurd hp hne
            | cons a b => simp [hp]
          omega
        obtain ⟨ih1, ih2⟩ := ih _ hfuel
        constructor
        · rw [hout]
          exact hasOcc_append_eq_false hC ih1
        · intro w hw hwne hpre
          rw [hout] at hpre
          rcases List.prefix_or_prefix_of_prefix hpre (List.prefix_append rep _)
            with h1 | h1
          · exact absurd h1 (hD w hw hwne).1
          · exact absurd h1 (hD w hw hwne).2
      · have hout : replaceAllF pat rep (m + 1) (x :: xs) =
            x :: replaceAllF pat rep m xs := by
          simp only [replaceAllF, if_neg hmatch]
        have hfuel : xs.length ≤ m := by
          have hxl : xs.length + 1 ≤ m + 1 := hlen
          omega
        obtain ⟨ih1, ih2⟩ := ih xs hfuel
        have hnp : pat.isPrefixOf (x :: xs) = false := by
          cases hb : pat.isPrefixOf (x :: xs) with
          | false => rfl
          | true => exact absurd ⟨hne, hb⟩ hmatch
        set R := replaceAllF pat rep m xs with hRdef
        constructor
        · rw [hout]
          have hhead : pat.isPrefixOf (x :: R) = false := by
            cases hb : pat.isPrefixOf (x :: R) with
            | false => rfl
            | true =>
              exfalso
              have hpre := List.isPrefixOf_iff_prefix.mp hb
              cases hp : pat with
              | nil => exact hne hp
              | cons pc pat' =>
                rw [hp] at hpre
                obtain ⟨tl, htl⟩ := hpre
                rw [List.cons_append] at htl
                have hpc : pc = x := (List.cons.inj htl).1
                have hrest : pat' ++ tl = R := (List.cons.inj htl).2
                cases hp' : pat' with
                | nil =>
                  have hping : pat.isPrefixOf (x :: xs) = true := by
                    apply List.isPrefixOf_iff_prefix.mpr
                    rw [hp, hp', hpc]
                    exact ⟨xs, rfl⟩
                  rw [hnp] at hping
                  exact Bool.noConfusion hping
                | cons d ds =>
                  have hsuf : pat' ∈ pat.tails := by
                    apply (List.mem_tails _ _).mpr
                    rw [hp]
                    exact ⟨[pc], rfl⟩
                  have hne' : pat' ≠ [] := by rw [hp']; simp
                  have hxsp : pat' <+: xs := ih2 pat' hsuf hne' ⟨tl, hrest⟩
                  have hping : pat.isPrefixOf (x :: xs) = true := by
                    apply List.isPrefixOf_iff_prefix.mpr
                    obtain ⟨tl2, htl2⟩ := hxsp
                    rw [hp, hpc]
                    exact ⟨tl2, by rw [List.cons_append, htl2]⟩
                  rw [hnp] at hping
                  exact Bool.noConfusion hping
          show (pat.isPrefixOf (x :: R) || hasOcc pat R) = false
          rw [hhead, ih1]
          rfl
        · intro w hw hwne hpre
          rw [hout] at hpre
          cases hwc : w with
          | nil => exact absurd hwc hwne
          | cons wc w' =>
            subst hwc
            obtain ⟨tl, htl⟩ := hpre
            rw [List.cons_append] at htl
            have hwcx : wc = x := (List.cons.inj htl).1
            have hrest : w' ++ tl = R := (List.cons.inj htl).2
            cases w' with
            | nil =>
              refine ⟨xs, ?_⟩
              simp [hwcx]
            | cons e es =>
              have hws : wc :: e :: es <:+ pat := (List.mem_tails _ _).mp hw
              have hsufw : (e :: es) ∈ pat.tails :=
                (List.mem_tails _ _).mpr (suffix_of_cons_suffix hws)
              obtain ⟨tl2, htl2⟩ := ih2 (e :: es) hsufw (by simp) ⟨tl, hrest⟩
              refine ⟨tl2, ?_⟩
              rw [List.cons_append, hwcx, htl2]

theorem nbsp_step_idem (s : List Char) :
    replaceAll "\\xa0".toList "\\u00A0".toList
        (replaceAll "\\xa0".toList "\\u00A0".toList s) =
      replaceAll "\\xa0".toList "\\u00A0".toList s := by
  have hmain := @replaceAllF_no_occ "\\xa0".toList "\\u00A0".toList
    (by decide) (by decide) (by decide) s.length s (Nat.le_refl _)
  exact replaceAllF_id_of_no_occ _ _ hmain.1

/-- C6 (amended): the claim's idempotence holds for the
whitespace-collapse-and-trim, non-breaking-space-normalization,
control-character-removal and first-bracket-extraction steps, but not for
the fence/token-stripping and comma-insertion steps, and the full sanitize
pipeline is not idempotent. -/
theorem sanitizer_steps_partial_idempotence :
    (∀ s, _sanitize_string (_sanitize_string s) = _sanitize_string s) ∧
    (∀ s, stripWs (collapseWs (stripWs (collapseWs s))) = stripWs (collapseWs s)) ∧
    (∀ s, replaceAll "\\xa0".toList "\\u00A0".toList
        (replaceAll "\\xa0".toList "\\u00A0".toList s) =
      replaceAll "\\xa0".toList "\\u00A0".toList s) ∧
    (∀ s t, _extract_and_evaluate_first s = some t →
      _extract_and_evaluate_first t = some t) :=
  ⟨sanitize_string_idem, collapse_strip_idem, nbsp_step_idem,
    fun _ _ h => extract_idem h⟩

/-- C6 witness: re-extracting an already-extracted span returns it
unchanged. -/
theorem sanitizer_steps_partial_idempotence_witness :
    _extract_and_evaluate_first "\x7ba\x7d".toList = some "\x7ba\x7d".toList :=
  sanitizer_steps_partial_idempotence.2.2.2 "x\x7ba\x7d".toList "\x7ba\x7d".toList (by decide)
